import Mathlib

/-!
Verification of the Bayesian change-point engine in
`src/bayesian_change_point.py` (class `BayesianChangePoint`).

The numeric code is embedded shallowly over the exact reals:
`float` values become `ℝ`, `np.log` (which returns `-inf` on `0`)
becomes a function into `EReal` with bottom standing for `-inf`,
and the `-np.inf` sentinel of `_log_posterior` becomes `⊥ : EReal`.
`np.mean`, `np.std` and `np.var` use their numpy defaults
(population variance, `ddof = 0`).
-/

noncomputable section

/-- numpy `np.mean` of a list (sum divided by length; numpy returns NaN on
an empty array, the embedding returns the junk value `0 / 0 = 0` there). -/
def listMean (xs : List ℝ) : ℝ := xs.sum / xs.length

/-- numpy `np.var` with `ddof = 0`: mean squared deviation from the mean. -/
def listVar (xs : List ℝ) : ℝ :=
  ((xs.map (fun x => (x - listMean xs) ^ 2)).sum) / xs.length

/-- numpy `np.std` with `ddof = 0`: square root of `listVar`. -/
def listStd (xs : List ℝ) : ℝ := Real.sqrt (listVar xs)

/-- Python `int(x)` on a float: truncation toward zero. -/
def pyInt (x : ℝ) : ℤ := if 0 ≤ x then ⌊x⌋ else -⌊-x⌋

/-- numpy `np.log` valued in the extended reals: `log` of a positive
argument, `-inf` (i.e. `⊥`) on `0`.  The code only ever applies it to
probability densities, which are nonnegative, so the `x < 0` case
(NaN in numpy) is collapsed into `⊥` as well. -/
def elog (x : ℝ) : EReal := if 0 < x then ((Real.log x : ℝ) : EReal) else ⊥

/-- scipy `uniform.pdf(x, loc, scale)`: density `1/scale` on the interval
`[loc, loc + scale]`, `0` outside.  Note the second scipy argument is a
*scale*, not the right endpoint. -/
def uniformPdf (loc scale x : ℝ) : ℝ :=
  if loc ≤ x ∧ x ≤ loc + scale then 1 / scale else 0

/-- scipy `norm.pdf(x, mu, sigma)` for `sigma > 0`. -/
def normPdf (mu sigma x : ℝ) : ℝ :=
  Real.exp (-((x - mu) ^ 2 / (2 * sigma ^ 2))) / (sigma * Real.sqrt (2 * Real.pi))

/-- scipy `halfcauchy.pdf(x, 0, scale)` for `scale > 0`: supported on
`x ≥ 0`. -/
def halfCauchyPdf (scale x : ℝ) : ℝ :=
  if 0 ≤ x then 2 / (Real.pi * scale * (1 + (x / scale) ^ 2)) else 0

/-- scipy `norm.logpdf(x, mu, sigma)` for `sigma > 0`, written directly as
a real number (the source only evaluates it at `sigma > 0`). -/
def normLogpdf (mu sigma x : ℝ) : ℝ :=
  -((x - mu) ^ 2 / (2 * sigma ^ 2)) - Real.log sigma - Real.log (2 * Real.pi) / 2

/-- The state owned by `BayesianChangePoint.__init__`: the raw data.
All derived attributes (`n`, the prior parameters) are recomputed from it
exactly as `__init__` does. -/
structure Model where
  data : List ℝ

/-- `BayesianChangePoint.__init__`: the constructor stores the data and
derives the priors; the source performs no validation of any kind. -/
def mkModel (data : List ℝ) : Model := ⟨data⟩

/-- `self.n = len(data)`. -/
def Model.n (m : Model) : ℕ := m.data.length

/-- `self.mu_prior_mean = np.mean(data)`. -/
def Model.muPriorMean (m : Model) : ℝ := listMean m.data

/-- `self.mu_prior_std = np.std(data) * 2`. -/
def Model.muPriorStd (m : Model) : ℝ := listStd m.data * 2

/-- `self.sigma_prior_scale = np.std(data)`. -/
def Model.sigmaPriorScale (m : Model) : ℝ := listStd m.data

/-- `self.tau_prior_range[0] = self.n * 0.2`. -/
def Model.tauLo (m : Model) : ℝ := (m.n : ℝ) * 0.2

/-- `self.tau_prior_range[1] = self.n * 0.8`.  This is passed to scipy as
the uniform *scale* argument. -/
def Model.tauHi (m : Model) : ℝ := (m.n : ℝ) * 0.8

/-- `BayesianChangePoint._log_posterior(tau, mu1, mu2, sigma)`.
Returns `-np.inf` (here `⊥`) when `int(tau) <= 10 or int(tau) >= n - 10
or sigma <= 0`; otherwise the sum of the four log-priors and the two
Normal log-likelihood sums over `data[:int(tau)]` and `data[int(tau):]`.
In the second branch the log-prior terms are `np.log` of scipy densities
and are modelled with `elog`; the likelihood terms are real numbers. -/
def logPosterior (m : Model) (tau mu1 mu2 sigma : ℝ) : EReal :=
  if pyInt tau ≤ 10 ∨ (m.n : ℤ) - 10 ≤ pyInt tau ∨ sigma ≤ 0 then ⊥
  else
    elog (uniformPdf m.tauLo m.tauHi tau)
      + elog (normPdf m.muPriorMean m.muPriorStd mu1)
      + elog (normPdf m.muPriorMean m.muPriorStd mu2)
      + elog (halfCauchyPdf m.sigmaPriorScale sigma)
      + (((m.data.take (pyInt tau).toNat).map (normLogpdf mu1 sigma)).sum : ℝ)
      + (((m.data.drop (pyInt tau).toNat).map (normLogpdf mu2 sigma)).sum : ℝ)

/-! ### Basic lemmas about the embedding -/

lemma pyInt_intCast (z : ℤ) : pyInt (z : ℝ) = z := by
  unfold pyInt
  split
  · exact Int.floor_intCast z
  · rw [show (-(z : ℝ)) = ((-z : ℤ) : ℝ) by push_cast; ring, Int.floor_intCast]
    ring

lemma pyInt_nonneg_of_ten_lt {x : ℝ} (h : 10 < pyInt x) : 0 ≤ x := by
  by_contra hx
  push_neg at hx
  have h1 : ¬(0 ≤ x) := not_le.2 hx
  have h2 : (0 : ℝ) ≤ -x := by linarith
  have h3 : (0 : ℤ) ≤ ⌊-x⌋ := Int.floor_nonneg.2 h2
  unfold pyInt at h
  rw [if_neg h1] at h
  omega

lemma pyInt_eq_floor {x : ℝ} (h : 0 ≤ x) : pyInt x = ⌊x⌋ := if_pos h

lemma elog_of_pos {x : ℝ} (h : 0 < x) : elog x = ((Real.log x : ℝ) : EReal) :=
  if_pos h

lemma elog_of_nonpos {x : ℝ} (h : ¬ 0 < x) : elog x = ⊥ := if_neg h

lemma uniformPdf_pos {loc scale x : ℝ} (hs : 0 < scale) (h1 : loc ≤ x)
    (h2 : x ≤ loc + scale) : 0 < uniformPdf loc scale x := by
  unfold uniformPdf
  rw [if_pos ⟨h1, h2⟩]
  positivity

lemma uniformPdf_eq {loc scale x : ℝ} (h1 : loc ≤ x) (h2 : x ≤ loc + scale) :
    uniformPdf loc scale x = 1 / scale := if_pos ⟨h1, h2⟩

lemma normPdf_pos {mu sigma x : ℝ} (hs : 0 < sigma) : 0 < normPdf mu sigma x := by
  unfold normPdf
  have hpi : 0 < Real.sqrt (2 * Real.pi) :=
    Real.sqrt_pos.2 (by positivity)
  positivity

lemma halfCauchyPdf_pos {scale x : ℝ} (hs : 0 < scale) (hx : 0 ≤ x) :
    0 < halfCauchyPdf scale x := by
  unfold halfCauchyPdf
  rw [if_pos hx]
  have hpi : 0 < Real.pi := Real.pi_pos
  positivity

/-- In the non-sentinel branch with all four densities positive, the log
posterior is the real number obtained by summing the four logs and the two
likelihood sums (in particular it is not `⊥`). -/
lemma logPosterior_eq_coe (m : Model) (tau mu1 mu2 sigma : ℝ)
    (hg : ¬(pyInt tau ≤ 10 ∨ (m.n : ℤ) - 10 ≤ pyInt tau ∨ sigma ≤ 0))
    (hu : 0 < uniformPdf m.tauLo m.tauHi tau)
    (h1 : 0 < normPdf m.muPriorMean m.muPriorStd mu1)
    (h2 : 0 < normPdf m.muPriorMean m.muPriorStd mu2)
    (hh : 0 < halfCauchyPdf m.sigmaPriorScale sigma) :
    logPosterior m tau mu1 mu2 sigma =
      ((Real.log (uniformPdf m.tauLo m.tauHi tau)
        + Real.log (normPdf m.muPriorMean m.muPriorStd mu1)
        + Real.log (normPdf m.muPriorMean m.muPriorStd mu2)
        + Real.log (halfCauchyPdf m.sigmaPriorScale sigma)
        + ((m.data.take (pyInt tau).toNat).map (normLogpdf mu1 sigma)).sum
        + ((m.data.drop (pyInt tau).toNat).map (normLogpdf mu2 sigma)).sum : ℝ)
        : EReal) := by
  rw [logPosterior, if_neg hg, elog_of_pos hu, elog_of_pos h1, elog_of_pos h2,
    elog_of_pos hh]
  rw [← EReal.coe_add, ← EReal.coe_add, ← EReal.coe_add, ← EReal.coe_add,
    ← EReal.coe_add]

/-- When the tau prior density vanishes, the non-sentinel branch still
evaluates to `⊥` because `np.log(0) = -inf` absorbs the remaining sum. -/
lemma logPosterior_eq_bot_of_uniform_zero (m : Model) (tau mu1 mu2 sigma : ℝ)
    (hg : ¬(pyInt tau ≤ 10 ∨ (m.n : ℤ) - 10 ≤ pyInt tau ∨ sigma ≤ 0))
    (hu : ¬ 0 < uniformPdf m.tauLo m.tauHi tau) :
    logPosterior m tau mu1 mu2 sigma = ⊥ := by
  rw [logPosterior, if_neg hg, elog_of_nonpos hu]
  rw [EReal.bot_add, EReal.bot_add, EReal.bot_add, EReal.bot_add, EReal.bot_add]

/-- Whenever the guard of `_log_posterior` lets a candidate through, the
data length satisfies `n ≥ 22`. -/
lemma n_ge_of_not_guard (m : Model) (tau sigma : ℝ)
    (hg : ¬(pyInt tau ≤ 10 ∨ (m.n : ℤ) - 10 ≤ pyInt tau ∨ sigma ≤ 0)) :
    22 ≤ m.n ∧ 0 < sigma := by
  have h1 : ¬(pyInt tau ≤ 10) := fun h => hg (Or.inl h)
  have h2 : ¬((m.n : ℤ) - 10 ≤ pyInt tau) := fun h => hg (Or.inr (Or.inl h))
  have h3 : ¬(sigma ≤ 0) := fun h => hg (Or.inr (Or.inr h))
  exact ⟨by omega, lt_of_not_le h3⟩

/-- For data of positive standard deviation and a candidate inside both the
guard range and the support of the scipy tau prior, `_log_posterior` yields
a real number, never `-inf`. -/
lemma logPosterior_ne_bot (m : Model) (tau mu1 mu2 sigma : ℝ)
    (hg : ¬(pyInt tau ≤ 10 ∨ (m.n : ℤ) - 10 ≤ pyInt tau ∨ sigma ≤ 0))
    (hstd : 0 < listStd m.data)
    (hlo : m.tauLo ≤ tau) (hhi : tau ≤ m.tauLo + m.tauHi) :
    logPosterior m tau mu1 mu2 sigma ≠ ⊥ := by
  obtain ⟨hn, hσ⟩ := n_ge_of_not_guard m tau sigma hg
  have hnR : (0 : ℝ) < (m.n : ℝ) := by
    have : (0 : ℕ) < m.n := by omega
    exact_mod_cast this
  have hHi : 0 < m.tauHi := by
    unfold Model.tauHi; nlinarith
  have hmu : 0 < m.muPriorStd := by
    unfold Model.muPriorStd; linarith
  have hsc : 0 < m.sigmaPriorScale := hstd
  rw [logPosterior_eq_coe m tau mu1 mu2 sigma hg
    (uniformPdf_pos hHi hlo hhi) (normPdf_pos hmu) (normPdf_pos hmu)
    (halfCauchyPdf_pos hsc hσ.le)]
  exact EReal.coe_ne_bot _

/-! ### Concrete example data

`coin a` is the series of `a` zeros followed by `a` ones; its numpy mean is
`1/2` and its numpy standard deviation is exactly `1/2`, which keeps every
derived prior parameter rational. -/

def coin (a : ℕ) : List ℝ := List.replicate a 0 ++ List.replicate a 1

lemma coin_length (a : ℕ) : (coin a).length = 2 * a := by
  simp [coin]
  omega

lemma listMean_coin {a : ℕ} (h : 0 < a) : listMean (coin a) = 1 / 2 := by
  have ha : (a : ℝ) ≠ 0 := Nat.cast_ne_zero.2 h.ne'
  unfold listMean coin
  simp only [List.sum_append, List.sum_replicate, List.length_append,
    List.length_replicate, nsmul_eq_mul]
  push_cast
  field_simp
  ring

lemma listVar_coin {a : ℕ} (h : 0 < a) : listVar (coin a) = 1 / 4 := by
  have ha : (a : ℝ) ≠ 0 := Nat.cast_ne_zero.2 h.ne'
  unfold listVar
  rw [listMean_coin h]
  unfold coin
  simp only [List.map_append, List.map_replicate, List.sum_append,
    List.sum_replicate, List.length_append, List.length_replicate,
    nsmul_eq_mul]
  push_cast
  field_simp
  ring

lemma listStd_coin {a : ℕ} (h : 0 < a) : listStd (coin a) = 1 / 2 := by
  unfold listStd
  rw [listVar_coin h, show (1 / 4 : ℝ) = (1 / 2) ^ 2 by norm_num,
    Real.sqrt_sq (by norm_num)]

/-- A 22-point series (11 zeros, 11 ones). -/
def exM22 : Model := mkModel (coin 11)

/-- A 40-point series (20 zeros, 20 ones). -/
def exM40 : Model := mkModel (coin 20)

/-- A 60-point series (30 zeros, 30 ones). -/
def exM60 : Model := mkModel (coin 30)

lemma exM22_n : exM22.n = 22 := by
  show (coin 11).length = 22
  rw [coin_length]

lemma exM40_n : exM40.n = 40 := by
  show (coin 20).length = 40
  rw [coin_length]

lemma exM60_n : exM60.n = 60 := by
  show (coin 30).length = 60
  rw [coin_length]

/-! ### Claim C1: the `_log_posterior` contract -/

/-- The density of the uniform distribution over the interval `[a, b]`
(`1/(b-a)` inside, `0` outside).  This follows the claim wording, which
reads the tau prior as "Uniform over the prior tau range `(0.2n, 0.8n)`";
the source instead passes `0.8n` to scipy as a *scale*. -/
def intervalUniformPdf (a b x : ℝ) : ℝ :=
  if a ≤ x ∧ x ≤ b then 1 / (b - a) else 0

/-- `_log_posterior` as the claim words it: identical to `logPosterior`
except that `p(tau)` is the uniform density over the interval
`(0.2n, 0.8n)`. -/
def specC1LogPosterior (m : Model) (tau mu1 mu2 sigma : ℝ) : EReal :=
  if pyInt tau ≤ 10 ∨ (m.n : ℤ) - 10 ≤ pyInt tau ∨ sigma ≤ 0 then ⊥
  else
    elog (intervalUniformPdf m.tauLo m.tauHi tau)
      + elog (normPdf m.muPriorMean m.muPriorStd mu1)
      + elog (normPdf m.muPriorMean m.muPriorStd mu2)
      + elog (halfCauchyPdf m.sigmaPriorScale sigma)
      + (((m.data.take (pyInt tau).toNat).map (normLogpdf mu1 sigma)).sum : ℝ)
      + (((m.data.drop (pyInt tau).toNat).map (normLogpdf mu2 sigma)).sum : ℝ)

/-- C1 (counterexample): on 60 data points, at `tau = 49` (inside the guard
range `(10, 50)` but above `0.8 n = 48`), the code returns a finite value
because the scipy call `uniform.pdf(tau, 0.2n, 0.8n)` has support
`[0.2n, n] = [12, 60]`, while the formula of the claim (uniform density
over `(12, 48)`) gives `log 0 = -inf`.  So `_log_posterior` differs from
the claimed formula. -/
theorem c1_counterexample :
    logPosterior exM60 49 (1/2) (1/2) (1/2) ≠
      specC1LogPosterior exM60 49 (1/2) (1/2) (1/2) := by
  have hp : pyInt (49:ℝ) = (49:ℤ) := by
    rw [show ((49:ℝ)) = ((49:ℤ):ℝ) by norm_num, pyInt_intCast]
  have hg : ¬(pyInt (49:ℝ) ≤ 10 ∨ (exM60.n : ℤ) - 10 ≤ pyInt (49:ℝ) ∨
      (1/2 : ℝ) ≤ 0) := by
    rw [hp, exM60_n]
    push_cast
    norm_num
  have hstd : 0 < listStd exM60.data := by
    show 0 < listStd (coin 30)
    rw [listStd_coin (by norm_num)]
    norm_num
  have hlo : exM60.tauLo ≤ 49 := by
    unfold Model.tauLo
    rw [exM60_n]
    push_cast
    norm_num
  have hsum : exM60.tauLo + exM60.tauHi = 60 := by
    unfold Model.tauLo Model.tauHi
    rw [exM60_n]
    push_cast
    norm_num
  have hLHS : logPosterior exM60 49 (1/2) (1/2) (1/2) ≠ ⊥ :=
    logPosterior_ne_bot exM60 49 (1/2) (1/2) (1/2) hg hstd hlo (by
      rw [hsum]; norm_num)
  have hzero : intervalUniformPdf exM60.tauLo exM60.tauHi 49 = 0 := by
    unfold intervalUniformPdf
    rw [if_neg]
    rintro ⟨-, h2⟩
    unfold Model.tauHi at h2
    rw [exM60_n] at h2
    push_cast at h2
    norm_num at h2
  have hRHS : specC1LogPosterior exM60 49 (1/2) (1/2) (1/2) = ⊥ := by
    rw [specC1LogPosterior, if_neg hg, hzero, elog_of_nonpos (by norm_num)]
    rw [EReal.bot_add, EReal.bot_add, EReal.bot_add, EReal.bot_add,
      EReal.bot_add]
  intro h
  rw [hRHS] at h
  exact hLHS h

/-- C1 (amended): for data with positive standard deviation and a candidate
passing the guard (`int(tau) > 10`, `int(tau) < n - 10`, `sigma > 0`),
`_log_posterior` is `-inf` exactly when `tau < 0.2 n` (below the support of
the scipy `uniform(loc = 0.2n, scale = 0.8n)` prior, whose support is
`[0.2n, n]`); for `tau ≥ 0.2 n` it equals the real number
`log(1/(0.8n)) + log p(mu1) + log p(mu2) + log p(sigma)` plus the Normal
log-likelihood sums over `data[:int(tau)]` and `data[int(tau):]`, i.e. the
tau prior density is `1/(0.8n)`, not the uniform density over
`(0.2n, 0.8n)`. -/
theorem logPosterior_characterization (m : Model) (hstd : 0 < listStd m.data)
    (tau mu1 mu2 sigma : ℝ)
    (hg : ¬(pyInt tau ≤ 10 ∨ (m.n : ℤ) - 10 ≤ pyInt tau ∨ sigma ≤ 0)) :
    (logPosterior m tau mu1 mu2 sigma = ⊥ ↔ tau < (m.n : ℝ) * 0.2) ∧
    ((m.n : ℝ) * 0.2 ≤ tau →
      logPosterior m tau mu1 mu2 sigma =
        ((Real.log (1 / ((m.n : ℝ) * 0.8))
          + Real.log (normPdf (listMean m.data) (listStd m.data * 2) mu1)
          + Real.log (normPdf (listMean m.data) (listStd m.data * 2) mu2)
          + Real.log (halfCauchyPdf (listStd m.data) sigma)
          + ((m.data.take (pyInt tau).toNat).map (normLogpdf mu1 sigma)).sum
          + ((m.data.drop (pyInt tau).toNat).map (normLogpdf mu2 sigma)).sum
          : ℝ) : EReal)) := by
  obtain ⟨hn, hσ⟩ := n_ge_of_not_guard m tau sigma hg
  have h1 : ¬(pyInt tau ≤ 10) := fun h => hg (Or.inl h)
  have h2 : ¬((m.n : ℤ) - 10 ≤ pyInt tau) := fun h => hg (Or.inr (Or.inl h))
  have htau0 : 0 ≤ tau := pyInt_nonneg_of_ten_lt (lt_of_not_le h1)
  have hnR : (22 : ℝ) ≤ (m.n : ℝ) := by exact_mod_cast hn
  have hfl : pyInt tau = ⌊tau⌋ := pyInt_eq_floor htau0
  have htn : tau ≤ (m.n : ℝ) := by
    have hlt : tau < (⌊tau⌋ : ℝ) + 1 := Int.lt_floor_add_one tau
    have hle : ⌊tau⌋ + 1 ≤ (m.n : ℤ) - 10 := by
      rw [hfl] at h2; omega
    have : ((⌊tau⌋ : ℤ) : ℝ) + 1 ≤ ((m.n : ℤ) : ℝ) - 10 := by
      exact_mod_cast (by exact_mod_cast hle : ((⌊tau⌋ + 1 : ℤ) : ℝ) ≤
        (((m.n : ℤ) - 10 : ℤ) : ℝ))
    push_cast at this
    linarith
  have hsum : m.tauLo + m.tauHi = (m.n : ℝ) := by
    unfold Model.tauLo Model.tauHi; ring
  have hHi : 0 < m.tauHi := by
    unfold Model.tauHi; nlinarith
  have hmu : 0 < m.muPriorStd := by
    unfold Model.muPriorStd; linarith
  constructor
  · constructor
    · intro hb
      by_contra hlt
      push_neg at hlt
      exact logPosterior_ne_bot m tau mu1 mu2 sigma hg hstd
        (by unfold Model.tauLo; exact hlt) (by rw [hsum]; exact htn) hb
    · intro hlt
      refine logPosterior_eq_bot_of_uniform_zero m tau mu1 mu2 sigma hg ?_
      unfold uniformPdf
      rw [if_neg]
      · norm_num
      · rintro ⟨ha, -⟩
        unfold Model.tauLo at ha
        linarith
  · intro hge
    have hlo : m.tauLo ≤ tau := by unfold Model.tauLo; exact hge
    have hhi : tau ≤ m.tauLo + m.tauHi := by rw [hsum]; exact htn
    rw [logPosterior_eq_coe m tau mu1 mu2 sigma hg
      (uniformPdf_pos hHi hlo hhi) (normPdf_pos hmu) (normPdf_pos hmu)
      (halfCauchyPdf_pos hstd hσ.le), uniformPdf_eq hlo hhi]
    unfold Model.tauHi Model.muPriorMean Model.muPriorStd Model.sigmaPriorScale
    rfl

/-- C1 (witness): the amended theorem applied to the 60-point example at
`tau = 13`, which lies in the scipy support, so the log posterior is
finite. -/
theorem c1_witness :
    0 < listStd exM60.data ∧
    ¬(pyInt (13:ℝ) ≤ 10 ∨ (exM60.n : ℤ) - 10 ≤ pyInt (13:ℝ) ∨
      (1/2 : ℝ) ≤ 0) ∧
    logPosterior exM60 13 (1/2) (1/2) (1/2) ≠ ⊥ := by
  have hp : pyInt (13:ℝ) = (13:ℤ) := by
    rw [show ((13:ℝ)) = ((13:ℤ):ℝ) by norm_num, pyInt_intCast]
  have hstd : 0 < listStd exM60.data := by
    show 0 < listStd (coin 30)
    rw [listStd_coin (by norm_num)]
    norm_num
  have hg : ¬(pyInt (13:ℝ) ≤ 10 ∨ (exM60.n : ℤ) - 10 ≤ pyInt (13:ℝ) ∨
      (1/2 : ℝ) ≤ 0) := by
    rw [hp, exM60_n]
    push_cast
    norm_num
  refine ⟨hstd, hg, fun hb => ?_⟩
  have h13 := ((logPosterior_characterization exM60 hstd 13 (1/2) (1/2) (1/2)
    hg).1).mp hb
  rw [exM60_n] at h13
  push_cast at h13
  norm_num at h13

/-! ### The Metropolis-Hastings sampler (`calculate_posterior_mcmc`)

Randomness is injected as explicit draw streams: `tauJump i` is the value
of `np.random.randint(-tau_step, tau_step + 1)` at iteration `i`, the
`d*` streams are the `np.random.normal(0, step)` draws, and `u i` is the
`np.random.random()` draw used in the acceptance test. -/

/-- One sampler state: `(current_tau, current_mu1, current_mu2,
current_sigma)`.  `tau` is an integer throughout the sampler. -/
structure MCState where
  tau : ℤ
  mu1 : ℝ
  mu2 : ℝ
  sigma : ℝ

/-- The random draws consumed by the sampler, one of each per iteration. -/
structure RandStream where
  tauJump : ℕ → ℤ
  dmu1 : ℕ → ℝ
  dmu2 : ℕ → ℝ
  dsigma : ℕ → ℝ
  u : ℕ → ℝ

/-- `np.clip(x, lo, hi)` on integers: `min(max(x, lo), hi)`. -/
def npClip (x lo hi : ℤ) : ℤ := min (max x lo) hi

/-- The tau proposal:
`np.clip(current_tau + np.random.randint(-tau_step, tau_step+1), 10, n-10)`. -/
def proposedTau (m : Model) (tau step : ℤ) : ℤ :=
  npClip (tau + step) 10 ((m.n : ℤ) - 10)

/-- The log posterior of a sampler state (`tau` cast back to a float, as
`_log_posterior` receives it). -/
def mcLogPost (m : Model) (s : MCState) : EReal :=
  logPosterior m (s.tau : ℝ) s.mu1 s.mu2 s.sigma

/-- The proposed state of one iteration: clipped tau walk, Gaussian walks
on the means, reflected (`abs`) walk on sigma. -/
def mcmcProposal (m : Model) (r : RandStream) (i : ℕ) (s : MCState) : MCState :=
  { tau := proposedTau m s.tau (r.tauJump i)
    mu1 := s.mu1 + r.dmu1 i
    mu2 := s.mu2 + r.dmu2 i
    sigma := |s.sigma + r.dsigma i| }

/-- One iteration of the Metropolis-Hastings loop: propose, compute the
log ratio, accept when `np.log(np.random.random()) < log_ratio`, otherwise
keep the current state. -/
def mcmcStep (m : Model) (r : RandStream) (i : ℕ) (s : MCState) : MCState :=
  if elog (r.u i) < mcLogPost m (mcmcProposal m r i s) - mcLogPost m s
  then mcmcProposal m r i s else s

/-- The sampling loop from iteration `i` with `rem` iterations left:
each iteration advances the state and, once `burnIn ≤ i`, records the
(possibly unchanged) current state. -/
def mcmcRun (m : Model) (r : RandStream) (burnIn : ℕ) :
    ℕ → ℕ → MCState → List MCState
  | _, 0, _ => []
  | i, rem + 1, s =>
    (if burnIn ≤ i then [mcmcStep m r i s] else [])
      ++ mcmcRun m r burnIn (i + 1) rem (mcmcStep m r i s)

/-- The initial state: `tau = n // 2`, `mu1` the mean of the first half,
`mu2` the mean of the second half, `sigma` the overall standard
deviation. -/
def mcmcInit (m : Model) : MCState :=
  { tau := (m.n : ℤ) / 2
    mu1 := listMean (m.data.take (m.n / 2))
    mu2 := listMean (m.data.drop (m.n / 2))
    sigma := listStd m.data }

/-- `calculate_posterior_mcmc(n_samples, burn_in)`: the recorded chain,
one `MCState` per post-burn-in iteration (the per-parameter sample lists
of the source are its four projections). -/
def mcmcChain (m : Model) (r : RandStream) (nSamples burnIn : ℕ) :
    List MCState :=
  mcmcRun m r burnIn 0 (nSamples + burnIn) (mcmcInit m)

lemma mcmcRun_length (m : Model) (r : RandStream) (b : ℕ) :
    ∀ (rem i : ℕ) (s : MCState),
      (mcmcRun m r b i rem s).length = rem - (b - i) := by
  intro rem
  induction rem with
  | zero => intro i s; simp [mcmcRun]
  | succ k ih =>
    intro i s
    rw [mcmcRun]
    rw [List.length_append, ih (i + 1)]
    split_ifs with h <;> simp <;> omega

/-- C4: for every model, random stream, `nSamples` and `burnIn`, the
sampler performs `nSamples + burnIn` iterations and each of the four
recorded sample lists (tau, mu1, mu2, sigma) has length exactly
`nSamples`, regardless of which proposals were accepted — a rejected
iteration re-records the unchanged current state. -/
theorem mcmc_chain_length (m : Model) (r : RandStream) (nSamples burnIn : ℕ) :
    ((mcmcChain m r nSamples burnIn).map MCState.tau).length = nSamples ∧
    ((mcmcChain m r nSamples burnIn).map MCState.mu1).length = nSamples ∧
    ((mcmcChain m r nSamples burnIn).map MCState.mu2).length = nSamples ∧
    ((mcmcChain m r nSamples burnIn).map MCState.sigma).length = nSamples := by
  have h : (mcmcChain m r nSamples burnIn).length = nSamples := by
    rw [mcmcChain, mcmcRun_length]
    omega
  simp [List.length_map, h]

/-- C7: the tau proposal is clipped into `[10, n - 10]`: for any current
tau and any step in `[-tau_step, tau_step]` (`tau_step = 5` in the
source), the proposed tau lies in `[10, n - 10]`, and a step that would
cross a bound yields exactly that bound. -/
theorem tau_proposal_clipped (m : Model) (hn : 21 ≤ m.n) (tau step : ℤ)
    (_hs : -5 ≤ step ∧ step ≤ 5) :
    10 ≤ proposedTau m tau step ∧
    proposedTau m tau step ≤ (m.n : ℤ) - 10 ∧
    (tau + step < 10 → proposedTau m tau step = 10) ∧
    ((m.n : ℤ) - 10 < tau + step → proposedTau m tau step = (m.n : ℤ) - 10) := by
  have hnz : (21 : ℤ) ≤ (m.n : ℤ) := by exact_mod_cast hn
  unfold proposedTau npClip
  rcases le_total (tau + step) 10 with h | h <;>
    rcases le_total (tau + step) ((m.n : ℤ) - 10) with h2 | h2 <;>
    simp [max_def, min_def] <;> omega

/-- C7 (witness): the clipping theorem at the 22-point example with
`tau = 11`, `step = 5`: the proposal `16` is clipped to the upper bound
`n - 10 = 12`. -/
theorem c7_witness :
    21 ≤ exM22.n ∧ (-5 ≤ (5:ℤ) ∧ (5:ℤ) ≤ 5) ∧
    10 ≤ proposedTau exM22 11 5 ∧ proposedTau exM22 11 5 ≤ (exM22.n : ℤ) - 10 := by
  have hn : 21 ≤ exM22.n := by rw [exM22_n]; norm_num
  have hs : -5 ≤ (5:ℤ) ∧ (5:ℤ) ≤ 5 := by norm_num
  exact ⟨hn, hs, (tau_proposal_clipped exM22 hn 11 5 hs).1,
    (tau_proposal_clipped exM22 hn 11 5 hs).2.1⟩

/-! ### Claim C9: accepted states always have finite log posterior -/

/-- A proposal whose log posterior is `-inf` yields a `-inf` log ratio and
is never accepted, so one step preserves finiteness of the log
posterior. -/
lemma mcmcStep_ne_bot (m : Model) (r : RandStream) (i : ℕ) (s : MCState)
    (h : mcLogPost m s ≠ ⊥) : mcLogPost m (mcmcStep m r i s) ≠ ⊥ := by
  unfold mcmcStep
  split_ifs with hc
  · intro hb
    rw [hb, EReal.bot_sub] at hc
    exact not_lt_bot hc
  · exact h

lemma mcmcRun_mem_ne_bot (m : Model) (r : RandStream) (b : ℕ) :
    ∀ (rem i : ℕ) (s : MCState), mcLogPost m s ≠ ⊥ →
      ∀ x ∈ mcmcRun m r b i rem s, mcLogPost m x ≠ ⊥ := by
  intro rem
  induction rem with
  | zero => intro i s h x hx; simp [mcmcRun] at hx
  | succ k ih =>
    intro i s h x hx
    rw [mcmcRun, List.mem_append] at hx
    rcases hx with hx | hx
    · split_ifs at hx with hb
      · rw [List.mem_singleton] at hx
        rw [hx]
        exact mcmcStep_ne_bot m r i s h
      · simp at hx
    · exact ih (i + 1) (mcmcStep m r i s) (mcmcStep_ne_bot m r i s h) x hx

/-- A state with finite log posterior satisfies the guard bounds. -/
lemma bounds_of_mcLogPost_ne_bot (m : Model) (s : MCState)
    (h : mcLogPost m s ≠ ⊥) :
    10 < s.tau ∧ s.tau < (m.n : ℤ) - 10 ∧ 0 < s.sigma := by
  unfold mcLogPost logPosterior at h
  rw [pyInt_intCast] at h
  by_cases hg : s.tau ≤ 10 ∨ (m.n : ℤ) - 10 ≤ s.tau ∨ s.sigma ≤ 0
  · rw [if_pos hg] at h
    exact absurd rfl h
  · push_neg at hg
    exact hg

/-- C9: if the initial MCMC state has finite log posterior, every state
recorded in the chain satisfies `10 < tau < n - 10` and `sigma > 0`: a
proposal with `-inf` log posterior gives a `-inf` log ratio, the
acceptance test `log(u) < -inf` is false, so such a proposal is never
accepted and every recorded state has finite log posterior. -/
theorem mcmc_states_stay_in_support (m : Model) (r : RandStream)
    (nSamples burnIn : ℕ) (h : mcLogPost m (mcmcInit m) ≠ ⊥) :
    ∀ s ∈ mcmcChain m r nSamples burnIn,
      10 < s.tau ∧ s.tau < (m.n : ℤ) - 10 ∧ 0 < s.sigma := by
  intro s hs
  exact bounds_of_mcLogPost_ne_bot m s
    (mcmcRun_mem_ne_bot m r burnIn (nSamples + burnIn) 0 (mcmcInit m) h s hs)

/-- A concrete random stream: the tau step draws are always `5`, the
Gaussian draws `0`, and the uniform draw `1/2`. -/
def exR : RandStream :=
  { tauJump := fun _ => 5
    dmu1 := fun _ => 0
    dmu2 := fun _ => 0
    dsigma := fun _ => 0
    u := fun _ => 1/2 }

lemma exM22_init_tau : (mcmcInit exM22).tau = 11 := by
  show ((exM22.n : ℤ)) / 2 = 11
  rw [exM22_n]
  rfl

lemma exM22_init_sigma : (mcmcInit exM22).sigma = 1/2 := by
  show listStd (coin 11) = 1/2
  exact listStd_coin (by norm_num)

lemma exM22_init_ne_bot : mcLogPost exM22 (mcmcInit exM22) ≠ ⊥ := by
  unfold mcLogPost
  rw [exM22_init_tau, exM22_init_sigma]
  have hg : ¬(pyInt ((11 : ℤ) : ℝ) ≤ 10 ∨
      (exM22.n : ℤ) - 10 ≤ pyInt ((11 : ℤ) : ℝ) ∨ (1/2 : ℝ) ≤ 0) := by
    rw [pyInt_intCast, exM22_n]
    push_cast
    norm_num
  have hstd : 0 < listStd exM22.data := by
    show 0 < listStd (coin 11)
    rw [listStd_coin (by norm_num)]
    norm_num
  refine logPosterior_ne_bot exM22 _ _ _ _ hg hstd ?_ ?_
  · unfold Model.tauLo
    rw [exM22_n]
    push_cast
    norm_num
  · unfold Model.tauLo Model.tauHi
    rw [exM22_n]
    push_cast
    norm_num

/-- C9 (witness): on the 22-point example with the constant stream, the
initial state has finite log posterior and the theorem instantiated at
the first recorded state yields the bounds. -/
theorem c9_witness :
    mcLogPost exM22 (mcmcInit exM22) ≠ ⊥ ∧
    (10 < (mcmcInit exM22).tau ∧
      (mcmcInit exM22).tau < (exM22.n : ℤ) - 10 ∧
      0 < (mcmcInit exM22).sigma) := by
  have hprop : (mcmcProposal exM22 exR 0 (mcmcInit exM22)).tau = 12 := by
    show proposedTau exM22 (mcmcInit exM22).tau (exR.tauJump 0) = 12
    rw [exM22_init_tau]
    show npClip (11 + 5) 10 ((exM22.n : ℤ) - 10) = 12
    rw [exM22_n]
    rfl
  have hbot : mcLogPost exM22 (mcmcProposal exM22 exR 0 (mcmcInit exM22)) = ⊥ := by
    unfold mcLogPost
    rw [hprop]
    have hcond : pyInt ((12 : ℤ) : ℝ) ≤ 10 ∨
        (exM22.n : ℤ) - 10 ≤ pyInt ((12 : ℤ) : ℝ) ∨
        (mcmcProposal exM22 exR 0 (mcmcInit exM22)).sigma ≤ 0 := by
      refine Or.inr (Or.inl ?_)
      rw [pyInt_intCast, exM22_n]
      norm_num
    rw [logPosterior, if_pos hcond]
  have hstep : mcmcStep exM22 exR 0 (mcmcInit exM22) = mcmcInit exM22 := by
    unfold mcmcStep
    rw [hbot, EReal.bot_sub, if_neg (not_lt_bot)]
  have hmem : mcmcInit exM22 ∈ mcmcChain exM22 exR 1 0 := by
    show mcmcInit exM22 ∈ mcmcRun exM22 exR 0 0 (1 + 0) (mcmcInit exM22)
    rw [mcmcRun]
    simp [hstep, mcmcRun]
  exact ⟨exM22_init_ne_bot,
    mcmc_states_stay_in_support exM22 exR 1 0 exM22_init_ne_bot
      (mcmcInit exM22) hmem⟩

/-! ### The grid estimator (`calculate_posterior_grid`)

The G⁴ posterior array is addressed by index quadruples `(i, j, k, l)`.
The source initializes it with `np.zeros` and leaves skipped cells (those
whose integer tau falls outside `(10, n - 10)`) at the float `0.0`.  On
every cell it does evaluate, all four densities are strictly positive
(the tau grid lies inside the scipy uniform support, the Normal and
half-Cauchy densities are positive for data with positive standard
deviation), so `np.log` is the real logarithm there and cells are modelled
as plain reals. -/

/-- `np.linspace(a, b, G)`: `G` evenly spaced points from `a` to `b`
inclusive (a single-point linspace is `[a]`). -/
def linspace (a b : ℝ) (G i : ℕ) : ℝ :=
  if G ≤ 1 then a else a + (b - a) * (i : ℝ) / ((G : ℝ) - 1)

/-- `tau_grid = np.linspace(tau_prior_range[0], tau_prior_range[1], G)`. -/
def tauGrid (m : Model) (G i : ℕ) : ℝ := linspace m.tauLo m.tauHi G i

/-- `mu1_grid = np.linspace(mean - 2 std, mean + 2 std, G)` (prior std). -/
def mu1Grid (m : Model) (G j : ℕ) : ℝ :=
  linspace (m.muPriorMean - 2 * m.muPriorStd) (m.muPriorMean + 2 * m.muPriorStd) G j

/-- `mu2_grid`, identical to `mu1_grid` in the source. -/
def mu2Grid (m : Model) (G k : ℕ) : ℝ :=
  linspace (m.muPriorMean - 2 * m.muPriorStd) (m.muPriorMean + 2 * m.muPriorStd) G k

/-- `sigma_grid = np.linspace(0.1, 2 sigma_prior_scale, G)`. -/
def sigmaGrid (m : Model) (G l : ℕ) : ℝ :=
  linspace 0.1 (m.sigmaPriorScale * 2) G l

/-- The value stored in `posterior[i, j, k, l]`: skipped tau rows keep the
`np.zeros` initial value `0.0`; evaluated cells hold the inline
log-posterior sum (priors always added, likelihood added when
`sigma > 0`). -/
def gridCellValue (m : Model) (G : ℕ) (i j k l : ℕ) : ℝ :=
  if pyInt (tauGrid m G i) ≤ 10 ∨ (m.n : ℤ) - 10 ≤ pyInt (tauGrid m G i) then 0
  else
    Real.log (uniformPdf m.tauLo m.tauHi (tauGrid m G i))
      + Real.log (normPdf m.muPriorMean m.muPriorStd (mu1Grid m G j))
      + Real.log (normPdf m.muPriorMean m.muPriorStd (mu2Grid m G k))
      + Real.log (halfCauchyPdf m.sigmaPriorScale (sigmaGrid m G l))
      + (if 0 < sigmaGrid m G l then
          ((m.data.take (pyInt (tauGrid m G i)).toNat).map
            (normLogpdf (mu1Grid m G j) (sigmaGrid m G l))).sum
          + ((m.data.drop (pyInt (tauGrid m G i)).toNat).map
            (normLogpdf (mu2Grid m G k) (sigmaGrid m G l))).sum
        else 0)

/-- The flattened C-order enumeration of the G⁴ index space, the order in
which `np.argmax` scans the array. -/
def gridIndices (G : ℕ) : List (ℕ × ℕ × ℕ × ℕ) :=
  (List.range G).flatMap fun i =>
    (List.range G).flatMap fun j =>
      (List.range G).flatMap fun k =>
        (List.range G).map fun l => (i, j, k, l)

/-- `np.argmax` over the enumeration: the first index whose value strictly
exceeds the running best is kept, so ties go to the earliest index. -/
def argmaxCell (f : ℕ × ℕ × ℕ × ℕ → ℝ) (idxs : List (ℕ × ℕ × ℕ × ℕ)) :
    ℕ × ℕ × ℕ × ℕ :=
  idxs.foldl (fun best q => if f best < f q then q else best) (0, 0, 0, 0)

/-- The MAP estimate of `calculate_posterior_grid`: the grid coordinates
of the argmax cell. -/
def gridMAP (m : Model) (G : ℕ) : ℝ × ℝ × ℝ × ℝ :=
  (tauGrid m G
      ((argmaxCell (fun q => gridCellValue m G q.1 q.2.1 q.2.2.1 q.2.2.2)
        (gridIndices G)).1),
    mu1Grid m G
      ((argmaxCell (fun q => gridCellValue m G q.1 q.2.1 q.2.2.1 q.2.2.2)
        (gridIndices G)).2.1),
    mu2Grid m G
      ((argmaxCell (fun q => gridCellValue m G q.1 q.2.1 q.2.2.1 q.2.2.2)
        (gridIndices G)).2.2.1),
    sigmaGrid m G
      ((argmaxCell (fun q => gridCellValue m G q.1 q.2.1 q.2.2.1 q.2.2.2)
        (gridIndices G)).2.2.2))

lemma foldl_argmax_of_le {α : Type} (f : α → ℝ) (b : α) :
    ∀ (idxs : List α), (∀ q ∈ idxs, f q ≤ f b) →
      idxs.foldl (fun best q => if f best < f q then q else best) b = b := by
  intro idxs
  induction idxs with
  | nil => intro _; rfl
  | cons q qs ih =>
    intro h
    have hq : f q ≤ f b := h q (List.mem_cons_self q qs)
    have hstep : (if f b < f q then q else b) = b := if_neg (not_lt.2 hq)
    rw [List.foldl_cons, hstep]
    exact ih fun x hx => h x (List.mem_cons_of_mem q hx)

lemma gridIndices_fst_lt (G : ℕ) : ∀ q ∈ gridIndices G, q.1 < G := by
  intro q hq
  unfold gridIndices at hq
  simp only [List.mem_flatMap, List.mem_map, List.mem_range] at hq
  obtain ⟨i, hi, j, _, k, _, l, _, rfl⟩ := hq
  exact hi

lemma exM40_tauGrid_zero : tauGrid exM40 2 0 = 8 := by
  unfold tauGrid linspace Model.tauLo Model.tauHi
  rw [exM40_n]
  push_cast
  norm_num

lemma exM40_tauGrid_one : tauGrid exM40 2 1 = 32 := by
  unfold tauGrid linspace Model.tauLo Model.tauHi
  rw [exM40_n]
  push_cast
  norm_num

/-- On the 40-point example with a 2-point grid, every tau row is skipped
(`int(8) = 8 ≤ 10` and `int(32) = 32 ≥ 30`), so every cell keeps the
`np.zeros` value `0.0`. -/
lemma exM40_cell_zero (i j k l : ℕ) (hi : i < 2) :
    gridCellValue exM40 2 i j k l = 0 := by
  unfold gridCellValue
  rw [if_pos]
  interval_cases i
  · left
    rw [exM40_tauGrid_zero, show (8:ℝ) = ((8:ℤ):ℝ) by norm_num, pyInt_intCast]
    norm_num
  · right
    rw [exM40_tauGrid_one, show (32:ℝ) = ((32:ℤ):ℝ) by norm_num, pyInt_intCast,
      exM40_n]
    norm_num

/-- C2 (refuting the claim on the code): on the 40-point example with a
2-point grid, every tau grid value has its integer part outside
`(10, n-10)`, yet those skipped cells hold `0.0` (from `np.zeros`), not
`-inf`; `np.argmax` then returns the first such cell and the MAP tau is
`8`, violating `10 < tau`.  The claim is right about the intent and the
code is wrong. -/
theorem grid_map_out_of_range :
    (gridMAP exM40 2).1 = 8 ∧ ¬((10:ℝ) < (gridMAP exM40 2).1) := by
  have hidx : argmaxCell
      (fun q => gridCellValue exM40 2 q.1 q.2.1 q.2.2.1 q.2.2.2)
      (gridIndices 2) = (0, 0, 0, 0) := by
    apply foldl_argmax_of_le
    intro q hq
    rw [exM40_cell_zero q.1 q.2.1 q.2.2.1 q.2.2.2 (gridIndices_fst_lt 2 q hq),
      exM40_cell_zero 0 0 0 0 (by norm_num)]
  have h1 : (gridMAP exM40 2).1 = 8 := by
    show tauGrid exM40 2
      ((argmaxCell (fun q => gridCellValue exM40 2 q.1 q.2.1 q.2.2.1 q.2.2.2)
        (gridIndices 2)).1) = 8
    rw [hidx]
    exact exM40_tauGrid_zero
  refine ⟨h1, ?_⟩
  rw [h1]
  norm_num

/-! ### Claim C5: the grid marginals -/

/-- `posterior.sum(axis=(1, 2, 3))` at tau index `i`: the raw sum of the
stored log values over the other three axes. -/
def gridRawSumTau (m : Model) (G : ℕ) (i : ℕ) : ℝ :=
  (Finset.range G).sum fun j =>
    (Finset.range G).sum fun k =>
      (Finset.range G).sum fun l => gridCellValue m G i j k l

/-- The tau marginal exactly as the source computes it:
`np.exp` of the raw summed log values, then divided by the total — with
no max subtraction before exponentiating. -/
def posteriorTauMarg (m : Model) (G : ℕ) (i : ℕ) : ℝ :=
  Real.exp (gridRawSumTau m G i) /
    (Finset.range G).sum fun j => Real.exp (gridRawSumTau m G j)

/-- Modelled from the spec: the per-marginal maximum log value that the
spec mandates subtracting before exponentiating. -/
def specMargMaxTau (m : Model) (G : ℕ) : ℝ :=
  ((List.range G).map (gridRawSumTau m G)).foldr max (gridRawSumTau m G 0)

/-- Modelled from the spec: the stabilized marginal — subtract the
per-marginal maximum, exponentiate, normalize. -/
def specStabilizedMargTau (m : Model) (G : ℕ) (i : ℕ) : ℝ :=
  Real.exp (gridRawSumTau m G i - specMargMaxTau m G) /
    (Finset.range G).sum fun j =>
      Real.exp (gridRawSumTau m G j - specMargMaxTau m G)

/-- C5 (exact-arithmetic content): over the exact reals the unstabilized
marginal of the source coincides with the stabilized marginal the spec
mandates, and it sums to `1`.  The divergence is purely a float64
phenomenon: for realistic data the raw log sums are on the order of
`-10^6`, `np.exp` underflows every entry to `0.0`, and the source then
normalizes by a zero total, producing NaN — which is why the spec calls
the unshifted version a bug. -/
theorem grid_marginal_stabilized_eq (m : Model) (G : ℕ) (hG : 1 ≤ G) (i : ℕ) :
    posteriorTauMarg m G i = specStabilizedMargTau m G i ∧
    (Finset.range G).sum (fun j => posteriorTauMarg m G j) = 1 := by
  have hne : (Finset.range G).Nonempty := Finset.nonempty_range_iff.2 (by omega)
  have hpos : 0 < (Finset.range G).sum fun j => Real.exp (gridRawSumTau m G j) :=
    Finset.sum_pos (fun j _ => Real.exp_pos _) hne
  constructor
  · unfold posteriorTauMarg specStabilizedMargTau
    have hc : Real.exp (specMargMaxTau m G) ≠ 0 := (Real.exp_pos _).ne'
    simp only [Real.exp_sub]
    rw [← Finset.sum_div]
    rw [div_div_div_cancel_right₀ hc]
  · unfold posteriorTauMarg
    rw [← Finset.sum_div, div_self hpos.ne']

/-- C5 (witness): the theorem applied to the 22-point example with a
single-point grid. -/
theorem c5_witness :
    1 ≤ 1 ∧ (posteriorTauMarg exM22 1 0 = specStabilizedMargTau exM22 1 0 ∧
      (Finset.range 1).sum (fun j => posteriorTauMarg exM22 1 j) = 1) :=
  ⟨le_refl 1, grid_marginal_stabilized_eq exM22 1 (le_refl 1) 0⟩

/-! ### The Gelman-Rubin diagnostic (`_calculate_r_hat`) -/

/-- `chain_length = len(samples) // n_chains`. -/
def rhatChainLen (samples : List ℝ) (m : ℕ) : ℕ := samples.length / m

/-- Row `i` of `samples[:n_chains * chain_length].reshape(n_chains,
chain_length)`. -/
def rhatChain (samples : List ℝ) (m i : ℕ) : List ℝ :=
  ((samples.take (m * rhatChainLen samples m)).drop
    (i * rhatChainLen samples m)).take (rhatChainLen samples m)

/-- `within_var = np.mean([np.var(chain) for chain in chains])`. -/
def rhatWithinVar (samples : List ℝ) (m : ℕ) : ℝ :=
  listMean ((List.range m).map fun i => listVar (rhatChain samples m i))

/-- `chain_means = np.mean(chains, axis=1)`. -/
def rhatChainMeans (samples : List ℝ) (m : ℕ) : List ℝ :=
  (List.range m).map fun i => listMean (rhatChain samples m i)

/-- `between_var = chain_length * np.var(chain_means)`. -/
def rhatBetweenVar (samples : List ℝ) (m : ℕ) : ℝ :=
  (rhatChainLen samples m : ℝ) * listVar (rhatChainMeans samples m)

/-- `total_var = (1 - 1/chain_length) * within_var +
(1/chain_length) * between_var`. -/
def rhatTotalVar (samples : List ℝ) (m : ℕ) : ℝ :=
  (1 - 1 / (rhatChainLen samples m : ℝ)) * rhatWithinVar samples m
    + (1 / (rhatChainLen samples m : ℝ)) * rhatBetweenVar samples m

/-- `_calculate_r_hat(samples, n_chains)`: the sentinel `1.0` when
`len(samples) < n_chains * 2`, otherwise `sqrt(total_var / within_var)`. -/
def calculateRHat (samples : List ℝ) (m : ℕ) : ℝ :=
  if samples.length < m * 2 then 1
  else Real.sqrt (rhatTotalVar samples m / rhatWithinVar samples m)

lemma rhatChain_eq (samples : List ℝ) (m i : ℕ) (hi : i < m) :
    rhatChain samples m i =
      (samples.drop (i * rhatChainLen samples m)).take
        (rhatChainLen samples m) := by
  unfold rhatChain
  rw [List.drop_take, List.take_take]
  congr 1
  have h2 : (i + 1) * rhatChainLen samples m ≤ m * rhatChainLen samples m :=
    Nat.mul_le_mul_right _ hi
  have h3 : i * rhatChainLen samples m + rhatChainLen samples m =
      (i + 1) * rhatChainLen samples m := by ring
  omega

/-- Follows the claim wording: the i-th of the `m` contiguous equal-length
sub-chains, of length `L = floor(len / m)`. -/
def specSubChain (samples : List ℝ) (m i : ℕ) : List ℝ :=
  (samples.drop (i * (samples.length / m))).take (samples.length / m)

/-- Follows the claim wording: `W`, the mean over sub-chains of each
sub-chain's (numpy population) variance. -/
def specW (samples : List ℝ) (m : ℕ) : ℝ :=
  listMean ((List.range m).map fun i => listVar (specSubChain samples m i))

/-- Follows the claim wording: `B = L * variance(sub-chain means)`. -/
def specB (samples : List ℝ) (m : ℕ) : ℝ :=
  ((samples.length / m : ℕ) : ℝ) *
    listVar ((List.range m).map fun i => listMean (specSubChain samples m i))

/-- C6: `_calculate_r_hat` returns exactly `1.0` when `len(samples) < 2m`;
otherwise it truncates to `m * L` samples with `L = floor(len/m)`, splits
them into `m` contiguous sub-chains of length `L`, and returns
`sqrt(V / W)` with `W` the mean of the sub-chain variances,
`B = L * variance(sub-chain means)` and `V = ((L-1)/L) W + B/L`. -/
theorem rhat_formula (samples : List ℝ) (m : ℕ) (hm : 1 ≤ m) :
    calculateRHat samples m =
      if samples.length < 2 * m then 1
      else
        Real.sqrt (((((samples.length / m : ℕ) : ℝ) - 1)
              / ((samples.length / m : ℕ) : ℝ) * specW samples m
            + specB samples m / ((samples.length / m : ℕ) : ℝ))
          / specW samples m) := by
  unfold calculateRHat
  rw [Nat.mul_comm m 2]
  split_ifs with h
  · rfl
  · push_neg at h
    have hL2 : 2 ≤ samples.length / m :=
      (Nat.le_div_iff_mul_le (by omega)).2 (by omega)
    have hLne : ((samples.length / m : ℕ) : ℝ) ≠ 0 := by
      have h2 : (2 : ℝ) ≤ ((samples.length / m : ℕ) : ℝ) := by exact_mod_cast hL2
      linarith
    have hW : rhatWithinVar samples m = specW samples m := by
      unfold rhatWithinVar specW
      refine congrArg listMean (List.map_congr_left fun i hi => ?_)
      rw [rhatChain_eq samples m i (List.mem_range.1 hi)]
      rfl
    have hB : rhatBetweenVar samples m = specB samples m := by
      unfold rhatBetweenVar specB rhatChainMeans rhatChainLen
      congr 1
      refine congrArg listVar (List.map_congr_left fun i hi => ?_)
      rw [rhatChain_eq samples m i (List.mem_range.1 hi)]
      rfl
    have hT : rhatTotalVar samples m =
        (((samples.length / m : ℕ) : ℝ) - 1) / ((samples.length / m : ℕ) : ℝ)
            * specW samples m
          + specB samples m / ((samples.length / m : ℕ) : ℝ) := by
      unfold rhatTotalVar rhatChainLen
      rw [hW, hB]
      field_simp
    rw [hT, hW]

/-- A concrete four-point sample list for the witnesses. -/
def exSamples : List ℝ := [0, 1, 2, 3]

/-- C6 (witness): the formula theorem applied to `[0, 1, 2, 3]` with two
sub-chains. -/
theorem c6_witness :
    1 ≤ 2 ∧ calculateRHat exSamples 2 =
      (if exSamples.length < 2 * 2 then 1
       else
        Real.sqrt (((((exSamples.length / 2 : ℕ) : ℝ) - 1)
              / ((exSamples.length / 2 : ℕ) : ℝ) * specW exSamples 2
            + specB exSamples 2 / ((exSamples.length / 2 : ℕ) : ℝ))
          / specW exSamples 2)) :=
  ⟨by norm_num, rhat_formula exSamples 2 (by norm_num)⟩

/-! ### Claim C10: R-hat on a constant chain divides by zero -/

lemma listMean_replicate {j : ℕ} (c : ℝ) (hj : j ≠ 0) :
    listMean (List.replicate j c) = c := by
  unfold listMean
  rw [List.sum_replicate, List.length_replicate, nsmul_eq_mul]
  exact mul_div_cancel_left₀ c (Nat.cast_ne_zero.2 hj)

lemma listVar_replicate (j : ℕ) (c : ℝ) : listVar (List.replicate j c) = 0 := by
  rcases Nat.eq_zero_or_pos j with rfl | hj
  · simp [listVar, listMean]
  · unfold listVar
    rw [listMean_replicate c hj.ne']
    simp [List.map_replicate, List.sum_replicate]

lemma rhatChain_replicate (k m i : ℕ) (c : ℝ) (hi : i < m) :
    rhatChain (List.replicate k c) m i = List.replicate (k / m) c := by
  unfold rhatChain rhatChainLen
  rw [List.length_replicate, List.take_replicate, List.drop_replicate,
    List.take_replicate]
  congr 1
  have h1 : m * (k / m) ≤ k := by
    rw [Nat.mul_comm]
    exact Nat.div_mul_le_self k m
  have h2 : (i + 1) * (k / m) ≤ m * (k / m) := Nat.mul_le_mul_right _ hi
  have h3 : i * (k / m) + k / m = (i + 1) * (k / m) := by ring
  omega

/-- C10: on a constant chain of length at least `2m` (for example when no
proposal was ever accepted), `_calculate_r_hat` passes its length guard,
computes `within_var = 0` and `total_var = 0`, and its final step is the
division `total_var / within_var = 0 / 0` followed by `sqrt` — in numpy
float arithmetic a NaN result, not a finite R-hat and not an error. -/
theorem rhat_constant_chain_divides_by_zero (c : ℝ) (k m : ℕ)
    (hm : 1 ≤ m) (hk : 2 * m ≤ k) :
    ¬((List.replicate k c).length < m * 2) ∧
    rhatWithinVar (List.replicate k c) m = 0 ∧
    rhatTotalVar (List.replicate k c) m = 0 ∧
    calculateRHat (List.replicate k c) m = Real.sqrt (0 / 0) := by
  have hguard : ¬((List.replicate k c).length < m * 2) := by
    rw [List.length_replicate]
    omega
  have hW : rhatWithinVar (List.replicate k c) m = 0 := by
    unfold rhatWithinVar
    have hz : ∀ i ∈ List.range m,
        listVar (rhatChain (List.replicate k c) m i) = (fun _ => (0:ℝ)) i :=
      fun i hi => by
        rw [rhatChain_replicate k m i c (List.mem_range.1 hi),
          listVar_replicate]
    rw [List.map_congr_left hz, List.map_const', List.length_range]
    unfold listMean
    simp [List.sum_replicate]
  have hL0 : k / m ≠ 0 := by
    have h2 : 2 ≤ k / m := (Nat.le_div_iff_mul_le (by omega)).2 (by omega)
    omega
  have hMeans : rhatChainMeans (List.replicate k c) m = List.replicate m c := by
    unfold rhatChainMeans
    have hc : ∀ i ∈ List.range m,
        listMean (rhatChain (List.replicate k c) m i) = (fun _ => c) i :=
      fun i hi => by
        rw [rhatChain_replicate k m i c (List.mem_range.1 hi),
          listMean_replicate c hL0]
    rw [List.map_congr_left hc, List.map_const', List.length_range]
  have hB : rhatBetweenVar (List.replicate k c) m = 0 := by
    unfold rhatBetweenVar
    rw [hMeans, listVar_replicate, mul_zero]
  have hT : rhatTotalVar (List.replicate k c) m = 0 := by
    unfold rhatTotalVar
    rw [hW, hB, mul_zero, mul_zero, add_zero]
  refine ⟨hguard, hW, hT, ?_⟩
  unfold calculateRHat
  rw [if_neg hguard, hT, hW]

/-- C10 (witness): the division-by-zero theorem at the constant chain of
eight ones with four sub-chains. -/
theorem c10_witness :
    1 ≤ 4 ∧ 2 * 4 ≤ 8 ∧
    (¬((List.replicate 8 (1:ℝ)).length < 4 * 2) ∧
     rhatWithinVar (List.replicate 8 (1:ℝ)) 4 = 0 ∧
     rhatTotalVar (List.replicate 8 (1:ℝ)) 4 = 0 ∧
     calculateRHat (List.replicate 8 (1:ℝ)) 4 = Real.sqrt (0 / 0)) :=
  ⟨by norm_num, by norm_num,
    rhat_constant_chain_divides_by_zero 1 8 4 (by norm_num) (by norm_num)⟩

/-! ### Claim C3: the constructor performs no validation -/

/-- C3 (refuting the claim on the code): `__init__` contains no validation
branch at all — no `InvalidInputError` exists anywhere in the source — so
a constant series of length `10` (shorter than 21 and with zero standard
deviation) constructs a model whose `sigma_prior_scale` and
`mu_prior_std` are `0`, instead of raising.  From those zero priors, later
density evaluations produce NaN (`norm.pdf` with zero scale). -/
theorem init_performs_no_validation :
    (mkModel (List.replicate 10 (5:ℝ))).n = 10 ∧
    (mkModel (List.replicate 10 (5:ℝ))).sigmaPriorScale = 0 ∧
    (mkModel (List.replicate 10 (5:ℝ))).muPriorStd = 0 := by
  have hstd : listStd (List.replicate 10 (5:ℝ)) = 0 := by
    unfold listStd
    rw [listVar_replicate, Real.sqrt_zero]
  refine ⟨?_, hstd, ?_⟩
  · show (List.replicate 10 (5:ℝ)).length = 10
    simp
  · show listStd (List.replicate 10 (5:ℝ)) * 2 = 0
    rw [hstd]
    ring

/-! ### Claim C8: the percent-change derivation at `mu1 = 0` -/

/-- numpy `float64` division, modelled on the extended reals: dividing a
nonzero numerator by zero yields a signed infinity (the `RuntimeWarning`
is suppressed by `warnings.filterwarnings("ignore")` at module import).
The `0/0` (NaN) case lies outside the inputs considered here. -/
def npDivE (a b : ℝ) : EReal :=
  if b = 0 then (if 0 < a then ⊤ else if a < 0 then ⊥ else 0)
  else ((a / b : ℝ) : EReal)

/-- The percent-change line of `plot_results`:
`(mu2 - mu1) / abs(mu1) * 100`, with numpy float semantics. -/
def percentChange (mu1 mu2 : ℝ) : EReal :=
  npDivE (mu2 - mu1) |mu1| * ((100 : ℝ) : EReal)

/-- C8 (refuting the claim on the code): at `mu1 = 0`, `mu2 = 5` the
summary computes `(5 - 0) / abs(0) * 100`, a numpy float division by zero
that silently evaluates to `+inf` (warnings are suppressed); no
`DivisionByZeroError` or `DegenerateResultError` exists in the source. -/
theorem percent_change_zero_mu1_infinite : percentChange 0 5 = ⊤ := by
  unfold percentChange npDivE
  rw [abs_zero, if_pos rfl, if_pos (by norm_num : (0:ℝ) < 5 - 0)]
  exact EReal.top_mul_coe_of_pos (by norm_num)

end
